import Mathlib

/-!
Verification of the Pulse feedback service (Cloudflare Worker, `src/README.md`
worker code and `src/my-pulse-app/src/index.ts`).

Strings of the JavaScript source are modelled as `List Char`; scores of the
external classifier as `ℚ` (JavaScript numbers, with 0.6 written as 6/10);
the D1 store as a `List` of rows.  The regular expression
`/about\s+(.+?)(?:\s|$)/i` used by GET /api/insights is modelled by a
backtracking matcher (`findMatch`) that mirrors the JavaScript engine:
leftmost match, greedy `\s+`, lazy `(.+?)` whose `.` excludes line
terminators.  `Char.toLower`/`Char.toUpper` model the ASCII behaviour of
`toLowerCase`/`toUpperCase` (the inputs of interest are basic latin).
-/

namespace Pulse

/-- The whitespace class of the JavaScript `\s`, `String.prototype.trim` and
friends, restricted to the characters this development reasons about
(space, tab, line feed, carriage return, vertical tab, form feed, no-break
space, and the line separators U+2028/U+2029, which are both whitespace and
line terminators in JavaScript). -/
def jsWS (c : Char) : Bool :=
  c == ' ' || c == '\t' || c == '\n' || c == '\r' || c == '\x0b' ||
    c == '\x0c' || c == '\u00A0' || c == '\u2028' || c == '\u2029'

/-- What the regex metacharacter `.` matches (no `s` flag): any character
except a line terminator. -/
def jsDotChar (c : Char) : Bool :=
  !(c == '\n' || c == '\r' || c == '\u2028' || c == '\u2029')

/-- The lazy fragment `(.+?)(?:\s|$)` of the insights regex, matched at the
start of `s`: the shortest non-empty run of `.`-characters followed by a
whitespace character or the end of the input; returns the captured group. -/
def lazyCap : List Char → Option (List Char)
  | [] => none
  | c :: rest =>
    if jsDotChar c then
      match rest with
      | [] => some [c]
      | d :: _ => if jsWS d then some [c] else (lazyCap rest).map fun t => c :: t
    else none

/-- The fragment `\s*(.+?)(?:\s|$)`, preferring to extend `\s*` (greedy) and
falling back, exactly as the backtracking JavaScript engine does. -/
def matchRest : List Char → Option (List Char)
  | [] => none
  | c :: rest =>
    if jsWS c then
      match matchRest rest with
      | some cap => some cap
      | none => lazyCap (c :: rest)
    else lazyCap (c :: rest)

/-- The fragment `\s+(.+?)(?:\s|$)` matched at the start of `s`. -/
def matchSPlus : List Char → Option (List Char)
  | [] => none
  | c :: rest => if jsWS c then matchRest rest else none

/-- `lowerQuery.match(/word\s+(.+?)(?:\s|$)/i)`: scan left to right for the
first position where the literal `word` followed by the tail fragment
matches, and return the captured group (`match[1]`). -/
def findMatch (word : List Char) : List Char → Option (List Char)
  | [] => none
  | c :: rest =>
    match (if word.isPrefixOf (c :: rest) then matchSPlus ((c :: rest).drop word.length) else none) with
    | some cap => some cap
    | none => findMatch word rest

/-- `String.prototype.trim`. -/
def jsTrim (s : List Char) : List Char :=
  ((s.dropWhile jsWS).reverse.dropWhile jsWS).reverse

/-- `String.prototype.toLowerCase` (ASCII). -/
def toLowerStr (s : List Char) : List Char := s.map Char.toLower

/-- `String.prototype.toUpperCase` (ASCII). -/
def toUpperStr (s : List Char) : List Char := s.map Char.toUpper

/-- `haystack.includes(needle)`. -/
def jsIncludes (w : List Char) : List Char → Bool
  | [] => w.isEmpty
  | c :: t => w.isPrefixOf (c :: t) || jsIncludes w t

/-- Spec-side notion of substring containment: `w` occurs contiguously
inside `s`. -/
def ContainsW (w s : List Char) : Prop := w <:+: s

instance (w s : List Char) : Decidable (ContainsW w s) := List.decidableInfix w s

/-- The structured filter `{sentiment, keyword}` that GET /api/insights
returns (`null` fields are `none`). -/
structure Filters where
  sentiment : Option String
  keyword : Option (List Char)
deriving DecidableEq, Repr

/-- The sentiment-intent detection of GET /api/insights, applied to the
lower-cased query: the three `includes`-chains in their source order. -/
def detectSentiment (lq : List Char) : Option String :=
  if jsIncludes ("positive").data lq || jsIncludes ("good").data lq ||
      jsIncludes ("great").data lq || jsIncludes ("excellent").data lq then
    some "positive"
  else if jsIncludes ("negative").data lq || jsIncludes ("bad").data lq ||
      jsIncludes ("issue").data lq || jsIncludes ("problem").data lq ||
      jsIncludes ("bug").data lq then
    some "negative"
  else if jsIncludes ("neutral").data lq then
    some "neutral"
  else none

/-- The literal word of the first keyword pattern. -/
def aboutW : List Char := ("about").data

/-- The literal word of the second keyword pattern. -/
def withW : List Char := ("with").data

/-- The keyword extraction of GET /api/insights: `aboutMatch`, else
`withMatch`, else — when no sentiment was detected — the trimmed query;
each result is `.trim().substring(0, 50)` of the capture. -/
def interpretKeyword (query : List Char) : Option (List Char) :=
  match findMatch aboutW (toLowerStr query) with
  | some cap => some ((jsTrim cap).take 50)
  | none =>
    match findMatch withW (toLowerStr query) with
    | some cap => some ((jsTrim cap).take 50)
    | none =>
      match detectSentiment (toLowerStr query) with
      | none => some ((jsTrim query).take 50)
      | some _ => none

/-- The whole interpreter of GET /api/insights (the handler rejects an
absent `q` before this runs, so `query` is the raw query string). -/
def interpret (query : List Char) : Filters :=
  ⟨detectSentiment (toLowerStr query), interpretKeyword query⟩

/-- Spec-side: the first whitespace-delimited token strictly after an
occurrence of `word` followed by whitespace — `none` when `word` never
occurs with a token after it.  Written from the claim's words, to be
compared with `findMatch`. -/
def tokenOf (s : List Char) : Option (List Char) :=
  match s with
  | [] => none
  | c :: rest =>
    if jsWS c then
      match (rest.dropWhile jsWS).takeWhile (fun d => !jsWS d) with
      | [] => none
      | t => some t
    else none

/-- Spec-side companion of `findMatch`: scan for the first occurrence of
`word` that is followed by whitespace and then a non-empty token. -/
def firstTokenAfter (word : List Char) : List Char → Option (List Char)
  | [] => none
  | c :: rest =>
    match (if word.isPrefixOf (c :: rest) then tokenOf ((c :: rest).drop word.length) else none) with
    | some t => some t
    | none => firstTokenAfter word rest

/-- One entry of the ranked list the Workers AI sentiment model returns;
both fields are optional in the source's type annotation
(`Array<\x7b label?: string; score?: number \x7d>`). -/
structure ClassResult where
  label : Option (List Char)
  score : Option ℚ
deriving DecidableEq, Repr

/-- The sentiment normalization of POST /feedback: start from "neutral",
and only when the top-ranked result exists with a truthy score at least
0.6 and a truthy label (present and non-empty — `&& topResult.label`)
decide "positive"/"negative" by comparing the upper-cased label with
"POSITIVE". -/
def normalizeSentiment (aiResult : List ClassResult) : String :=
  match aiResult with
  | [] => "neutral"
  | top :: _ =>
    match top.score, top.label with
    | some s, some l =>
      if s ≠ 0 ∧ (6 : ℚ) / 10 ≤ s ∧ l ≠ [] then
        if toUpperStr l = ("POSITIVE").data then "positive" else "negative"
      else "neutral"
    | _, _ => "neutral"

/-- Spec-side case-insensitive equality of two strings. -/
def EqCI (a b : List Char) : Prop := toUpperStr a = toUpperStr b

/-- A JSON value that can sit in the `text` field of a request body
(objects and arrays, also truthy non-strings, are elided: a number and a
boolean already exhibit every behaviour the claims need). -/
inductive JVal where
  | jstr (s : List Char)
  | jnum (n : Int)
  | jbool (b : Bool)
  | jnull
deriving DecidableEq, Repr

/-- JavaScript truthiness of a `JVal`. -/
def truthy : JVal → Bool
  | .jstr s => !s.isEmpty
  | .jnum n => n != 0
  | .jbool b => b
  | .jnull => false

/-- The parsed body of POST /feedback (`\x7b text?, source? \x7d`). -/
structure ReqBody where
  text : Option JVal
  source : Option (List Char)
deriving DecidableEq, Repr

/-- An HTTP response: status code and JSON body text. -/
structure HttpResp where
  status : Nat
  body : String
deriving DecidableEq, Repr

/-- The 400 response of the canonical worker's text validation. -/
def missingTextResp : HttpResp :=
  ⟨400, "\x7b\"error\":\"Missing or empty text field\"\x7d"⟩

/-- The one 500 response of the canonical worker's classify-then-insert
`try/catch` (shared by classifier and store failures). -/
def storeFailResp : HttpResp :=
  ⟨500, "\x7b\"error\":\"Failed to store feedback\"\x7d"⟩

/-- The success response of POST /feedback. -/
def successResp : HttpResp :=
  ⟨200, "\x7b\"success\":true\x7d"⟩

/-- What a request handler can produce: an HTTP response, or an uncaught
exception escaping the handler (a generic runtime failure, not one of the
handler's own responses). -/
inductive IngestOutcome where
  | resp (r : HttpResp)
  | thrown
deriving DecidableEq, Repr

/-- A row of the D1 `feedback` table as POST /feedback inserts it
(`id` is store-assigned and never read back by the ingestion path). -/
structure StoredRow where
  text : List Char
  source : Option (List Char)
  sentiment : String
  created_at : String
deriving DecidableEq, Repr

/-- The external classifier capability: `env.AI.run` either yields the
ranked result list or fails. -/
def Classifier := List Char → Except Unit (List ClassResult)

/-- POST /feedback of the canonical worker (README code): validate
`!body.text || body.text.trim() === ""`, run the classifier, normalize,
insert `(text, source ?? null, sentiment, now)`.  A truthy non-string
`text` reaches `body.text.trim()` and throws a `TypeError` (the check sits
outside both `try` blocks).  `insertOk` models whether the D1 insert
succeeds; both external failures land in the same `catch`. -/
def ingest (body : ReqBody) (classify : Classifier) (insertOk : Bool)
    (now : String) (store : List StoredRow) : IngestOutcome × List StoredRow :=
  match body.text with
  | none => (.resp missingTextResp, store)
  | some v =>
    if truthy v = false then (.resp missingTextResp, store)
    else
      match v with
      | .jstr s =>
        if jsTrim s = [] then (.resp missingTextResp, store)
        else
          match classify s with
          | .error _ => (.resp storeFailResp, store)
          | .ok aiResult =>
            if insertOk then
              (.resp successResp,
                store ++ [⟨s, body.source, normalizeSentiment aiResult, now⟩])
            else (.resp storeFailResp, store)
      | _ => (.thrown, store)

/-- An entry of the in-memory `feedbackStore` of the prototype worker
(`src/my-pulse-app/src/index.ts`): no sentiment, `source` defaulted. -/
structure MemRow where
  text : List Char
  source : List Char
  createdAt : String
deriving DecidableEq, Repr

/-- POST /feedback of the in-memory prototype: validation includes the
`typeof body.text !== "string"` check, and the pushed entry uses
`body.source ?? "unknown"`. -/
def ingestMem (body : ReqBody) (now : String) (store : List MemRow) :
    HttpResp × List MemRow :=
  match body.text with
  | none => (missingTextResp, store)
  | some v =>
    if truthy v = false then (missingTextResp, store)
    else
      match v with
      | .jstr s =>
        if (jsTrim s).length = 0 then (missingTextResp, store)
        else
          (successResp,
            store ++ [⟨s, (body.source).getD (("unknown").data), now⟩])
      | _ => (missingTextResp, store)

/-- The dashboard's rendering `item.source || 'unknown'` of a stored
(possibly null) source. -/
def renderSource (src : Option (List Char)) : List Char :=
  match src with
  | some s => if s.isEmpty then ("unknown").data else s
  | none => ("unknown").data

/-- `url.searchParams.get(p)` filtered through the handler's truthiness
test `if (param)`: an absent or empty parameter adds no condition. -/
def presentParam (p : Option String) : Option String :=
  match p with
  | none => none
  | some s => if s = "" then none else some s

/-- `text LIKE '%keyword%'` as the spec describes it: case-insensitive
substring containment of the keyword in the text. -/
def ciContains (text : List Char) (kw : String) : Bool :=
  jsIncludes (toLowerStr kw.data) (toLowerStr text)

/-- Modelled from the spec: the external SQL engine's evaluation of the
query GET /api/feedback builds (`listFiltered` of spec §4.2) — the engine
itself is not part of this repository.  `sentiment` is an exact match,
`keyword` a case-insensitive substring match on `text`, AND semantics,
`LIMIT 50`; the `ORDER BY created_at DESC` ordering is abstracted as the
ambient order of `rows`. -/
def listFiltered (rows : List StoredRow) (sentiment keyword : Option String) :
    List StoredRow :=
  (rows.filter fun r =>
    (match sentiment with
     | some s => r.sentiment == s
     | none => true)
    &&
    (match keyword with
     | some k => ciContains r.text k
     | none => true)).take 50

/-- GET /api/feedback: read the two query parameters, add a condition for
each truthy one, and run the resulting query. -/
def apiFeedback (rows : List StoredRow) (sentimentParam keywordParam : Option String) :
    List StoredRow :=
  listFiltered rows (presentParam sentimentParam) (presentParam keywordParam)

/-- Spec-side: the record passes the sentiment filter (vacuously when the
filter is absent). -/
def SentMatches (sp : Option String) (r : StoredRow) : Prop :=
  match sp with
  | none => True
  | some s => r.sentiment = s

instance (sp : Option String) (r : StoredRow) : Decidable (SentMatches sp r) := by
  unfold SentMatches
  cases sp <;> exact inferInstance

/-- Spec-side: the lower-cased keyword occurs inside the lower-cased text. -/
def CiSubstrP (k : String) (t : List Char) : Prop :=
  ContainsW (toLowerStr k.data) (toLowerStr t)

instance (k : String) (t : List Char) : Decidable (CiSubstrP k t) := by
  unfold CiSubstrP
  exact inferInstance

/-- Spec-side: the record passes the keyword filter (vacuously when the
filter is absent). -/
def KwMatches (kp : Option String) (r : StoredRow) : Prop :=
  match kp with
  | none => True
  | some k => CiSubstrP k r.text

instance (kp : Option String) (r : StoredRow) : Decidable (KwMatches kp r) := by
  unfold KwMatches
  cases kp <;> exact inferInstance

/-- Spec-side: the lower-cased query contains one of the positive cue
words. -/
def PosHit (q : List Char) : Prop :=
  ContainsW (("positive").data) (toLowerStr q) ∨
  ContainsW (("good").data) (toLowerStr q) ∨
  ContainsW (("great").data) (toLowerStr q) ∨
  ContainsW (("excellent").data) (toLowerStr q)

/-- Spec-side: the lower-cased query contains one of the negative cue
words. -/
def NegHit (q : List Char) : Prop :=
  ContainsW (("negative").data) (toLowerStr q) ∨
  ContainsW (("bad").data) (toLowerStr q) ∨
  ContainsW (("issue").data) (toLowerStr q) ∨
  ContainsW (("problem").data) (toLowerStr q) ∨
  ContainsW (("bug").data) (toLowerStr q)

/-- A 51-character keyword a client can pass to GET /api/feedback. -/
def longKw : String := String.mk (List.replicate 51 ('a'))

/-- A stored row whose text is 51 characters of 'a'. -/
def row51 : StoredRow := ⟨List.replicate 51 ('a'), none, "neutral", "t"⟩

/-- A stored row whose text is 50 characters of 'a'. -/
def row50 : StoredRow := ⟨List.replicate 50 ('a'), none, "neutral", "t"⟩

/-- Two stored rows used to exercise the filtered read. -/
def sampleRows : List StoredRow :=
  [⟨("Great App").data, none, "positive", "t1"⟩,
   ⟨("bad app").data, none, "negative", "t2"⟩]

/-! ## Theorems -/

/-- `String.prototype.includes` agrees with spec-side substring
containment. -/
theorem jsIncludes_iff (w s : List Char) : jsIncludes w s = true ↔ ContainsW w s := by
  induction s with
  | nil =>
    simp [jsIncludes, ContainsW, List.infix_nil, List.isEmpty_iff]
  | cons c t ih =>
    simp only [jsIncludes, Bool.or_eq_true, ih, ContainsW, List.infix_cons_iff,
      List.isPrefixOf_iff_prefix]

/-- C1 (amended): for every classifier output, the normalized sentiment is
`neutral` exactly when the top-ranked result is absent, its score is
missing or below 0.6, or its label is missing or empty (an empty string is
falsy in JavaScript); otherwise it is `positive` exactly when the top
label equals "POSITIVE" case-insensitively and `negative` otherwise. -/
theorem normalize_sentiment_spec (rs : List ClassResult) :
    (normalizeSentiment rs = "positive" ↔
      ∃ top rest s l, rs = top :: rest ∧ top.score = some s ∧
        (6 : ℚ) / 10 ≤ s ∧ top.label = some l ∧ l ≠ [] ∧
        EqCI l (("POSITIVE").data))
  ∧ (normalizeSentiment rs = "negative" ↔
      ∃ top rest s l, rs = top :: rest ∧ top.score = some s ∧
        (6 : ℚ) / 10 ≤ s ∧ top.label = some l ∧ l ≠ [] ∧
        ¬ EqCI l (("POSITIVE").data))
  ∧ (normalizeSentiment rs = "neutral" ↔
      (rs = [] ∨ ∃ top rest, rs = top :: rest ∧
        (top.score = none ∨ (∃ s, top.score = some s ∧ s < (6 : ℚ) / 10) ∨
          top.label = none ∨ top.label = some []))) := by
  have hU : toUpperStr (("POSITIVE").data) = ("POSITIVE").data := by decide
  have hCI : ∀ l : List Char, EqCI l (("POSITIVE").data) ↔
      toUpperStr l = ("POSITIVE").data := by
    intro l; rw [EqCI, hU]
  obtain _ | ⟨top, rest⟩ := rs
  · refine ⟨?_, ?_, ?_⟩ <;> simp [normalizeSentiment]
  · obtain ⟨lab, sc⟩ := top
    obtain _ | s := sc <;> obtain _ | l := lab
    · refine ⟨?_, ?_, ?_⟩ <;> simp [normalizeSentiment]
    · refine ⟨?_, ?_, ?_⟩ <;> simp [normalizeSentiment]
    · refine ⟨?_, ?_, ?_⟩ <;> simp [normalizeSentiment]
    · by_cases h6 : (6 : ℚ) / 10 ≤ s
      · have hs0 : s ≠ 0 := by intro h; rw [h] at h6; norm_num at h6
        have hlt : ¬ s < (6 : ℚ) / 10 := not_lt.mpr h6
        by_cases hl0 : l = []
        · subst hl0
          refine ⟨?_, ?_, ?_⟩ <;> simp [normalizeSentiment, hs0, h6, hCI, hlt]
        · by_cases hP : toUpperStr l = ("POSITIVE").data
          · refine ⟨?_, ?_, ?_⟩ <;>
              simp [normalizeSentiment, hs0, h6, hP, hCI, hlt, hl0]
          · refine ⟨?_, ?_, ?_⟩ <;>
              simp [normalizeSentiment, hs0, h6, hP, hCI, hlt, hl0]
      · refine ⟨?_, ?_, ?_⟩ <;>
          simp [normalizeSentiment, h6, lt_of_not_le h6]

/-- C1 (counterexample): a top result with the empty-string label and
score 0.9 — the label is present (not missing) and differs from
"POSITIVE" case-insensitively, so the claim's rules give "negative", but
the worker's truthiness test `&& topResult.label` rejects the empty
string and leaves the sentiment "neutral". -/
theorem normalize_empty_label_cex :
    normalizeSentiment [⟨some [], some ((9 : ℚ) / 10)⟩] = "neutral"
  ∧ (some ([] : List Char)) ≠ (none : Option (List Char))
  ∧ (6 : ℚ) / 10 ≤ 9 / 10
  ∧ ¬ EqCI [] (("POSITIVE").data)
  ∧ ("neutral" : String) ≠ "negative" := by
  refine ⟨?_, by simp, by norm_num, by simp [EqCI, toUpperStr], by decide⟩
  show (if (9 : ℚ) / 10 ≠ 0 ∧ (6 : ℚ) / 10 ≤ 9 / 10 ∧ ([] : List Char) ≠ [] then
      if toUpperStr [] = ("POSITIVE").data then "positive" else "negative"
    else "neutral") = "neutral"
  rw [if_neg (by simp)]

/-- C4: for every query, sentiment detection follows the fixed priority
positive (cue words "positive"/"good"/"great"/"excellent"), then negative
("negative"/"bad"/"issue"/"problem"/"bug"), then neutral ("neutral"),
else unset, all as substring tests on the lower-cased query. -/
theorem interpret_sentiment_priority (q : List Char) :
    ((interpret q).sentiment = some "positive" ↔ PosHit q)
  ∧ ((interpret q).sentiment = some "negative" ↔ ¬ PosHit q ∧ NegHit q)
  ∧ ((interpret q).sentiment = some "neutral" ↔
      ¬ PosHit q ∧ ¬ NegHit q ∧ ContainsW (("neutral").data) (toLowerStr q))
  ∧ ((interpret q).sentiment = none ↔
      ¬ PosHit q ∧ ¬ NegHit q ∧ ¬ ContainsW (("neutral").data) (toLowerStr q)) := by
  have hsent : (interpret q).sentiment = detectSentiment (toLowerStr q) := rfl
  rw [hsent]
  unfold detectSentiment
  by_cases h1 : (jsIncludes (("positive").data) (toLowerStr q) ||
      jsIncludes (("good").data) (toLowerStr q) ||
      jsIncludes (("great").data) (toLowerStr q) ||
      jsIncludes (("excellent").data) (toLowerStr q)) = true
  · have hP : PosHit q := by
      simp only [PosHit, ← jsIncludes_iff]
      simp only [Bool.or_eq_true] at h1
      tauto
    rw [if_pos h1]
    refine ⟨?_, ?_, ?_, ?_⟩ <;> simp [hP]
  · have hnP : ¬ PosHit q := by
      simp only [PosHit, ← jsIncludes_iff]
      simp only [Bool.or_eq_true] at h1
      tauto
    rw [if_neg h1]
    by_cases h2 : (jsIncludes (("negative").data) (toLowerStr q) ||
        jsIncludes (("bad").data) (toLowerStr q) ||
        jsIncludes (("issue").data) (toLowerStr q) ||
        jsIncludes (("problem").data) (toLowerStr q) ||
        jsIncludes (("bug").data) (toLowerStr q)) = true
    · have hN : NegHit q := by
        simp only [NegHit, ← jsIncludes_iff]
        simp only [Bool.or_eq_true] at h2
        tauto
      rw [if_pos h2]
      refine ⟨?_, ?_, ?_, ?_⟩ <;> simp [hnP, hN]
    · have hnN : ¬ NegHit q := by
        simp only [NegHit, ← jsIncludes_iff]
        simp only [Bool.or_eq_true] at h2
        tauto
      rw [if_neg h2]
      by_cases h3 : jsIncludes (("neutral").data) (toLowerStr q) = true
      · have hNe : ContainsW (("neutral").data) (toLowerStr q) :=
          (jsIncludes_iff _ _).mp h3
        rw [if_pos h3]
        refine ⟨?_, ?_, ?_, ?_⟩ <;> simp [hnP, hnN, hNe]
      · have hnNe : ¬ ContainsW (("neutral").data) (toLowerStr q) :=
          fun h => h3 ((jsIncludes_iff _ _).mpr h)
        rw [if_neg h3]
        refine ⟨?_, ?_, ?_, ?_⟩ <;> simp [hnP, hnN, hnNe]

/-- C2: a missing or falsy `text` and a whitespace-only string are rejected
with the 400 validation response, independently of the classifier and with
the store unchanged; but a truthy non-string `text` (here the number 1)
escapes as an uncaught `TypeError` instead of the claimed 400 — the
canonical worker has no `typeof` check. -/
theorem ingest_validation_behavior :
    (∀ (src : Option (List Char)) (cl : Classifier) (ins : Bool) (now : String)
        (st : List StoredRow),
        ingest ⟨none, src⟩ cl ins now st = (.resp missingTextResp, st))
  ∧ (∀ (src : Option (List Char)) (cl : Classifier) (ins : Bool) (now : String)
        (st : List StoredRow),
        ingest ⟨some .jnull, src⟩ cl ins now st = (.resp missingTextResp, st))
  ∧ (∀ (src : Option (List Char)) (cl : Classifier) (ins : Bool) (now : String)
        (st : List StoredRow),
        ingest ⟨some (.jbool false), src⟩ cl ins now st = (.resp missingTextResp, st))
  ∧ (∀ (src : Option (List Char)) (cl : Classifier) (ins : Bool) (now : String)
        (st : List StoredRow),
        ingest ⟨some (.jnum 0), src⟩ cl ins now st = (.resp missingTextResp, st))
  ∧ (∀ (src : Option (List Char)) (cl : Classifier) (ins : Bool) (now : String)
        (st : List StoredRow),
        ingest ⟨some (.jstr []), src⟩ cl ins now st = (.resp missingTextResp, st))
  ∧ (∀ (src : Option (List Char)) (cl : Classifier) (ins : Bool) (now : String)
        (st : List StoredRow),
        ingest ⟨some (.jstr ([' ', '\t'])), src⟩ cl ins now st
          = (.resp missingTextResp, st))
  ∧ (∀ (src : Option (List Char)) (cl : Classifier) (ins : Bool) (now : String)
        (st : List StoredRow),
        ingest ⟨some (.jnum 1), src⟩ cl ins now st = (.thrown, st))
  ∧ (∀ r : HttpResp, (IngestOutcome.thrown : IngestOutcome) ≠ .resp r) := by
  refine ⟨fun _ _ _ _ _ => rfl, fun _ _ _ _ _ => rfl, fun _ _ _ _ _ => rfl,
    fun _ _ _ _ _ => rfl, fun _ _ _ _ _ => rfl, fun _ _ _ _ _ => rfl,
    fun _ _ _ _ _ => rfl, fun r h => by cases h⟩

/-- C5: when the external classifier call fails, the canonical worker
answers with its 500 server-error response and the store is unchanged —
the failure is not mapped to a `neutral` record. -/
theorem ingest_classifier_failure (body : ReqBody) (s : List Char)
    (cl : Classifier) (ins : Bool) (now : String) (st : List StoredRow)
    (htext : body.text = some (.jstr s)) (hne : s ≠ [])
    (htrim : jsTrim s ≠ []) (hfail : cl s = .error ()) :
    ingest body cl ins now st = (.resp storeFailResp, st) := by
  obtain ⟨t, src⟩ := body
  cases htext
  simp [ingest, truthy, hne, htrim, hfail]

/-- C5, applied at a concrete failing classifier. -/
theorem ingest_classifier_failure_witness :
    ingest ⟨some (.jstr (("hi").data)), none⟩ (fun _ => .error ()) true "t0" []
      = (.resp storeFailResp, []) :=
  ingest_classifier_failure ⟨some (.jstr (("hi").data)), none⟩ (("hi").data)
    (fun _ => .error ()) true "t0" [] rfl (by decide) (by decide) rfl

/-- The normalization at the concrete classifier output used below: the
top result is labelled "POSITIVE" with score 0.9. -/
theorem normalize_positive_eval :
    normalizeSentiment [⟨some (("POSITIVE").data), some ((9 : ℚ) / 10)⟩]
      = "positive" := by
  show (if (9 : ℚ) / 10 ≠ 0 ∧ (6 : ℚ) / 10 ≤ 9 / 10 ∧ ("POSITIVE").data ≠ [] then
      if toUpperStr (("POSITIVE").data) = ("POSITIVE").data then "positive"
      else "negative"
    else "neutral") = "positive"
  rw [if_pos ⟨by norm_num, by norm_num, by decide⟩, if_pos (by decide)]

/-- C7 (counterexample): a successful ingestion whose request omits
`source` persists `null` (`none`), not the string "unknown". -/
theorem ingest_source_null_cex :
    ingest ⟨some (.jstr (("great app").data)), none⟩
        (fun _ => .ok [⟨some (("POSITIVE").data), some ((9 : ℚ) / 10)⟩]) true
        "2024-01-01T00:00:00Z" []
      = (.resp successResp,
          [⟨("great app").data, none, "positive", "2024-01-01T00:00:00Z"⟩])
  ∧ (none : Option (List Char)) ≠ some (("unknown").data) := by
  refine ⟨?_, by simp⟩
  show (if jsTrim (("great app").data) = [] then
      (IngestOutcome.resp missingTextResp, ([] : List StoredRow))
    else
      (IngestOutcome.resp successResp,
        [⟨("great app").data, none,
          normalizeSentiment [⟨some (("POSITIVE").data), some ((9 : ℚ) / 10)⟩],
          "2024-01-01T00:00:00Z"⟩])) = _
  rw [if_neg (by decide), normalize_positive_eval]

/-- C7 (amended): the canonical worker binds `body.source ?? null`, so an
omitted source is persisted as `null`; the "unknown" sentinel appears only
in the in-memory prototype's store and in the dashboard's rendering. -/
theorem ingest_source_default_amended (s : List Char) (cl : Classifier)
    (rs : List ClassResult) (now nowMem : String) (st : List StoredRow)
    (stm : List MemRow) (hne : s ≠ []) (htrim : jsTrim s ≠ [])
    (hcl : cl s = .ok rs) :
    ingest ⟨some (.jstr s), none⟩ cl true now st
      = (.resp successResp, st ++ [⟨s, none, normalizeSentiment rs, now⟩])
  ∧ ingestMem ⟨some (.jstr s), none⟩ nowMem stm
      = (successResp, stm ++ [⟨s, ("unknown").data, nowMem⟩])
  ∧ renderSource none = ("unknown").data := by
  refine ⟨?_, ?_, rfl⟩
  · simp [ingest, truthy, hne, htrim, hcl]
  · simp [ingestMem, truthy, hne, htrim]

/-- C7 (amended), applied at a concrete request without a source. -/
theorem ingest_source_default_amended_witness :
    (ingest ⟨some (.jstr (("ok").data)), none⟩ (fun _ => .ok []) true "t1" []
        = (.resp successResp, [⟨("ok").data, none, normalizeSentiment [], "t1"⟩]))
  ∧ ingestMem ⟨some (.jstr (("ok").data)), none⟩ "t2" []
      = (successResp, [⟨("ok").data, ("unknown").data, "t2"⟩])
  ∧ renderSource none = ("unknown").data :=
  ingest_source_default_amended (("ok").data) (fun _ => .ok []) [] "t1" "t2" [] []
    (by decide) (by decide) rfl

/-- C8 (counterexample): two successful ingestions of different texts get
literally identical responses — the response is the constant
`\x7b"success":true\x7d`, so it cannot carry the constructed record. -/
theorem ingest_response_constant_cex :
    (ingest ⟨some (.jstr (("aa").data)), none⟩ (fun _ => .ok []) true "t0" []).1
      = (ingest ⟨some (.jstr (("bb").data)), none⟩ (fun _ => .ok []) true "t0" []).1
  ∧ (ingest ⟨some (.jstr (("aa").data)), none⟩ (fun _ => .ok []) true "t0" []).2
      ≠ (ingest ⟨some (.jstr (("bb").data)), none⟩ (fun _ => .ok []) true "t0" []).2
  ∧ (ingest ⟨some (.jstr (("aa").data)), none⟩ (fun _ => .ok []) true "t0" []).1
      = .resp successResp := by
  exact ⟨rfl, by decide, rfl⟩

/-- C8 (amended): on success the canonical worker returns only the constant
acknowledgement (status 200, body `\x7b"success":true\x7d`); the
constructed record and the store-assigned id are not echoed back. -/
theorem ingest_success_response_amended (s : List Char) (src : Option (List Char))
    (cl : Classifier) (rs : List ClassResult) (now : String) (st : List StoredRow)
    (hne : s ≠ []) (htrim : jsTrim s ≠ []) (hcl : cl s = .ok rs) :
    (ingest ⟨some (.jstr s), src⟩ cl true now st).1 = .resp successResp
  ∧ successResp = ⟨200, "\x7b\"success\":true\x7d"⟩ := by
  refine ⟨?_, rfl⟩
  simp [ingest, truthy, hne, htrim, hcl]

/-- C8 (amended), applied at a concrete successful ingestion. -/
theorem ingest_success_response_amended_witness :
    (ingest ⟨some (.jstr (("nice").data)), none⟩ (fun _ => .ok []) true "t3" []).1
      = .resp successResp
  ∧ successResp = ⟨200, "\x7b\"success\":true\x7d"⟩ :=
  ingest_success_response_amended (("nice").data) none (fun _ => .ok []) [] "t3" []
    (by decide) (by decide) rfl

/-- String `==` agrees with `decide` of propositional equality. -/
theorem beq_eq_decide_str (a b : String) : (a == b) = decide (a = b) := by
  by_cases h : a = b <;> simp [h]

/-- The handler's `LIKE`-condition boolean agrees with `decide` of the
spec-side case-insensitive substring property. -/
theorem ciContains_eq_decide (t : List Char) (k : String) :
    ciContains t k = decide (CiSubstrP k t) := by
  by_cases h : CiSubstrP k t
  · rw [decide_eq_true h]
    exact (jsIncludes_iff _ _).mpr h
  · rw [decide_eq_false h]
    exact Bool.eq_false_iff.mpr fun hh => h ((jsIncludes_iff _ _).mp hh)

/-- Pointwise form of the C6 equivalence: the boolean condition the handler
builds equals the spec-side predicate, for any sentiment parameter other
than the empty string. -/
theorem filter_pred_eq (sp kp : Option String) (hs : sp ≠ some "") (r : StoredRow) :
    ((match presentParam sp with
      | some s => r.sentiment == s
      | none => true)
     &&
     (match presentParam kp with
      | some k => ciContains r.text k
      | none => true))
      = decide (SentMatches sp r ∧ KwMatches kp r) := by
  rcases sp with _ | sv
  · rcases kp with _ | k
    · simp [presentParam, SentMatches, KwMatches]
    · by_cases hk : k = ""
      · subst hk
        simp [presentParam, SentMatches, KwMatches, CiSubstrP, ContainsW, toLowerStr]
      · simp [presentParam, hk, SentMatches, KwMatches, ciContains_eq_decide]
  · have hsv : sv ≠ "" := fun h => hs (by rw [h])
    rcases kp with _ | k
    · simp [presentParam, hsv, SentMatches, KwMatches, beq_eq_decide_str]
    · by_cases hk : k = ""
      · subst hk
        simp [presentParam, hsv, SentMatches, KwMatches, CiSubstrP, ContainsW,
          beq_eq_decide_str, toLowerStr]
      · simp [presentParam, hsv, hk, SentMatches, KwMatches, beq_eq_decide_str,
          ciContains_eq_decide]

/-- C6: GET /api/feedback returns exactly the stored records whose
sentiment equals the present sentiment filter and whose text contains the
present keyword filter case-insensitively (AND semantics, both optional),
subject to the limit of 50; with no filter present it returns all records
subject to the limit.  (The sentiment parameter is assumed not to be the
empty string: the handler treats `""` as absent, and a filter's sentiment
ranges over the three non-empty sentiment values.) -/
theorem api_feedback_filter_semantics (rows : List StoredRow) (sp kp : Option String)
    (hs : sp ≠ some "") :
    apiFeedback rows sp kp
      = (rows.filter fun r => decide (SentMatches sp r ∧ KwMatches kp r)).take 50
  ∧ (sp = none → kp = none → apiFeedback rows sp kp = rows.take 50) := by
  constructor
  · unfold apiFeedback listFiltered
    congr 1
    exact List.filter_congr fun r _ => filter_pred_eq sp kp hs r
  · intro h1 h2
    subst h1; subst h2
    simp [apiFeedback, listFiltered, presentParam]

/-- C6, applied at two concrete rows with both filters present, including
the evaluated result. -/
theorem api_feedback_filter_semantics_witness :
    ((some "positive" : Option String) ≠ some "")
  ∧ (apiFeedback sampleRows (some "positive") (some "great")
      = (sampleRows.filter fun r =>
          decide (SentMatches (some "positive") r ∧ KwMatches (some "great") r)).take 50
    ∧ ((some "positive" : Option String) = none → (some "great" : Option String) = none →
        apiFeedback sampleRows (some "positive") (some "great") = sampleRows.take 50))
  ∧ apiFeedback sampleRows (some "positive") (some "great")
      = [⟨("Great App").data, none, "positive", "t1"⟩] :=
  ⟨by simp,
   api_feedback_filter_semantics sampleRows (some "positive") (some "great") (by simp),
   by decide⟩

/-- C9 (counterexample): a 51-character keyword passed directly to
GET /api/feedback is used for retrieval unchanged — it is longer than 50
characters, and its full 51 characters take part in the match (a 50
character text does not match it). -/
theorem direct_keyword_uncapped_cex :
    presentParam (some longKw) = some longKw
  ∧ longKw.length = 51
  ∧ ¬ (longKw.length ≤ 50)
  ∧ apiFeedback [row51] none (some longKw) = [row51]
  ∧ apiFeedback [row50] none (some longKw) = [] := by
  exact ⟨by decide, by decide, by decide, by decide, by decide⟩

/-- C9 (amended): every keyword the Query Interpreter produces has length
at most 50, but a keyword passed directly as the `keyword` query parameter
of GET /api/feedback is passed through to retrieval with no length cap. -/
theorem keyword_cap_amended (q : List Char) (kw : String) :
    (∀ k, (interpret q).keyword = some k → k.length ≤ 50)
  ∧ (kw ≠ "" → presentParam (some kw) = some kw) := by
  constructor
  · intro k hk
    have hkk : interpretKeyword q = some k := hk
    unfold interpretKeyword at hkk
    rcases hA : findMatch aboutW (toLowerStr q) with _ | capA
    · rw [hA] at hkk
      rcases hW : findMatch withW (toLowerStr q) with _ | capW
      · rw [hW] at hkk
        rcases hS : detectSentiment (toLowerStr q) with _ | sv
        · rw [hS] at hkk
          simp only [Option.some.injEq] at hkk
          subst hkk
          exact List.length_take_le 50 (jsTrim q)
        · rw [hS] at hkk
          simp at hkk
      · rw [hW] at hkk
        simp only [Option.some.injEq] at hkk
        subst hkk
        exact List.length_take_le 50 (jsTrim capW)
    · rw [hA] at hkk
      simp only [Option.some.injEq] at hkk
      subst hkk
      exact List.length_take_le 50 (jsTrim capA)
  · intro h
    simp [presentParam, h]

/-- A character that is not whitespace is matched by the regex `.`
(every line terminator is whitespace). -/
theorem dot_of_not_ws (c : Char) (h : jsWS c = false) : jsDotChar c = true := by
  simp only [jsWS, Bool.or_eq_false_iff, beq_eq_false_iff_ne] at h
  simp only [jsDotChar, Bool.not_eq_true', Bool.or_eq_false_iff,
    beq_eq_false_iff_ne]
  tauto

/-- ASCII lower-casing is idempotent. -/
theorem toLower_toLower (c : Char) : Char.toLower (Char.toLower c) = Char.toLower c := by
  have hrep : Char.toLower c =
      if c.toNat ≥ 65 ∧ c.toNat ≤ 90 then Char.ofNat (c.toNat + 32) else c := rfl
  by_cases h : c.toNat ≥ 65 ∧ c.toNat ≤ 90
  · rw [hrep, if_pos h]
    obtain ⟨h1, h2⟩ := h
    generalize hg : c.toNat = n at h1 h2
    interval_cases n <;> decide
  · rw [hrep, if_neg h, hrep, if_neg h]

/-- On a non-whitespace head the lazy capture is the maximal run of
non-whitespace characters. -/
theorem lazyCap_token : ∀ (x : Char) (xs : List Char), jsWS x = false →
    lazyCap (x :: xs) = some ((x :: xs).takeWhile fun d => !jsWS d)
  | x, [], hx => by
    simp [lazyCap, dot_of_not_ws x hx, List.takeWhile, hx]
  | x, d :: tl, hx => by
    have hxd := dot_of_not_ws x hx
    by_cases hd : jsWS d = true
    · simp [lazyCap, hxd, hd, List.takeWhile, hx]
    · have hd' : jsWS d = false := by simpa using hd
      have ih := lazyCap_token d tl hd'
      have hstep : lazyCap (x :: d :: tl) = (lazyCap (d :: tl)).map fun t => x :: t := by
        simp [lazyCap, hxd, hd']
      rw [hstep, ih]
      simp [List.takeWhile, hx, hd']

/-- When something follows the whitespace run, `matchRest` captures the
first token. -/
theorem matchRest_token : ∀ s : List Char, s.dropWhile jsWS ≠ [] →
    matchRest s = some ((s.dropWhile jsWS).takeWhile fun d => !jsWS d)
  | [], h => absurd rfl h
  | c :: rest, h => by
    by_cases hc : jsWS c = true
    · have hdw : (c :: rest).dropWhile jsWS = rest.dropWhile jsWS := by
        simp [List.dropWhile, hc]
      rw [hdw] at h ⊢
      have ih := matchRest_token rest h
      simp [matchRest, hc, ih]
    · have hc' : jsWS c = false := by simpa using hc
      have hdw : (c :: rest).dropWhile jsWS = c :: rest := by
        simp [List.dropWhile, hc']
      rw [hdw]
      simp [matchRest, hc', lazyCap_token c rest hc']

/-- On all-whitespace input the lazy capture is empty or one whitespace
character. -/
theorem lazyCap_allWS : ∀ s : List Char, (∀ c ∈ s, jsWS c = true) →
    lazyCap s = none ∨ ∃ d, jsWS d = true ∧ lazyCap s = some [d]
  | [], _ => Or.inl rfl
  | c :: rest, h => by
    have hc : jsWS c = true := h c (List.mem_cons_self c rest)
    by_cases hdot : jsDotChar c = true
    · match rest with
      | [] => exact Or.inr ⟨c, hc, by simp [lazyCap, hdot]⟩
      | d :: tl =>
        have hd : jsWS d = true := h d (by simp)
        exact Or.inr ⟨c, hc, by simp [lazyCap, hdot, hd]⟩
    · have : jsDotChar c = false := by simpa using hdot
      exact Or.inl (by simp [lazyCap, this])

/-- On all-whitespace input `matchRest` returns nothing or a single
whitespace character. -/
theorem matchRest_allWS : ∀ s : List Char, (∀ c ∈ s, jsWS c = true) →
    matchRest s = none ∨ ∃ d, jsWS d = true ∧ matchRest s = some [d]
  | [], _ => Or.inl rfl
  | c :: rest, h => by
    have hc : jsWS c = true := h c (List.mem_cons_self c rest)
    have ih := matchRest_allWS rest fun x hx => h x (List.mem_cons_of_mem c hx)
    rcases ih with hnone | ⟨d, hd, hsome⟩
    · rcases lazyCap_allWS (c :: rest) h with hl | ⟨d, hd, hl⟩
      · exact Or.inl (by simp [matchRest, hc, hnone, hl])
      · exact Or.inr ⟨d, hd, by simp [matchRest, hc, hnone, hl]⟩
    · exact Or.inr ⟨d, hd, by simp [matchRest, hc, hsome]⟩

/-- When the spec-side extraction finds a token, the regex fragment
captures exactly that token. -/
theorem matchSPlus_of_tokenOf_some (s t : List Char) (h : tokenOf s = some t) :
    matchSPlus s = some t := by
  match s with
  | [] => simp [tokenOf] at h
  | c :: rest =>
    by_cases hc : jsWS c = true
    · simp only [tokenOf, hc, if_pos] at h
      have hne : rest.dropWhile jsWS ≠ [] := by
        intro hz
        rw [hz] at h
        simp [List.takeWhile] at h
      have hmr := matchRest_token rest hne
      have ht : (rest.dropWhile jsWS).takeWhile (fun d => !jsWS d) = t := by
        rcases hw : (rest.dropWhile jsWS).takeWhile (fun d => !jsWS d) with _ | ⟨a, b⟩
        · rw [hw] at h; simp at h
        · rw [hw] at h
          simpa using h
      simp [matchSPlus, hc, hmr, ht]
    · simp [tokenOf, hc] at h

/-- When the spec-side extraction finds no token, the regex fragment either
fails or captures a single whitespace character. -/
theorem matchSPlus_of_tokenOf_none (s : List Char) (h : tokenOf s = none) :
    matchSPlus s = none ∨ ∃ d, jsWS d = true ∧ matchSPlus s = some [d] := by
  match s with
  | [] => exact Or.inl rfl
  | c :: rest =>
    by_cases hc : jsWS c = true
    · simp only [tokenOf, hc, if_pos] at h
      have hz : rest.dropWhile jsWS = [] := by
        rcases hw : rest.dropWhile jsWS with _ | ⟨a, b⟩
        · rfl
        · have ha : jsWS a = false := by
            have := List.head_dropWhile_not jsWS rest
            rw [hw] at this
            simpa using this
          rw [hw] at h
          simp [List.takeWhile, ha] at h
      have hall : ∀ x ∈ rest, jsWS x = true := List.dropWhile_eq_nil_iff.mp hz
      have := matchRest_allWS rest hall
      rcases this with hnone | ⟨d, hd, hsome⟩
      · exact Or.inl (by simp [matchSPlus, hc, hnone])
      · exact Or.inr ⟨d, hd, by simp [matchSPlus, hc, hsome]⟩
    · have hc' : jsWS c = false := by simpa using hc
      exact Or.inl (by simp [matchSPlus, hc'])

/-- No occurrence of a non-whitespace word can start inside an
all-whitespace string, so the spec-side scan finds nothing there. -/
theorem firstTokenAfter_allWS_nil (word : List Char) (hw : word ≠ [])
    (hnws : ∀ c ∈ word, jsWS c = false) :
    ∀ ws : List Char, (∀ c ∈ ws, jsWS c = true) → firstTokenAfter word ws = none
  | [], _ => rfl
  | c :: r, h => by
    obtain ⟨wh, wt, rfl⟩ : ∃ wh wt, word = wh :: wt := by
      match word, hw with
      | wh :: wt, _ => exact ⟨wh, wt, rfl⟩
    have hpre : (wh :: wt).isPrefixOf (c :: r) = false := by
      by_cases hbe : (wh == c) = true
      · have : wh = c := eq_of_beq hbe
        have h1 : jsWS wh = false := hnws wh (by simp)
        have h2 : jsWS c = true := h c (by simp)
        rw [this] at h1
        rw [h1] at h2
        exact absurd h2 (by simp)
      · have : (wh == c) = false := by simpa using hbe
        simp [List.isPrefixOf, this]
    have ih := firstTokenAfter_allWS_nil (wh :: wt) hw hnws r
      (fun x hx => h x (List.mem_cons_of_mem c hx))
    simp [firstTokenAfter, hpre, ih]

/-- Nor can it start inside a proper tail of the word followed by
whitespace only. -/
theorem firstTokenAfter_shortSuffix_nil (word : List Char) (hw : word ≠ [])
    (hnws : ∀ c ∈ word, jsWS c = false) :
    ∀ w2 ws : List Char, w2.length < word.length →
      (∀ c ∈ ws, jsWS c = true) → firstTokenAfter word (w2 ++ ws) = none
  | [], ws, _, hws => firstTokenAfter_allWS_nil word hw hnws ws hws
  | c :: w2, ws, hlen, hws => by
    have hpre : ¬ word <+: c :: (w2 ++ ws) := by
      intro hp0
      have hp2 : word <+: (c :: w2) ++ ws := by
        rw [List.cons_append]
        exact hp0
      rw [List.prefix_iff_eq_take] at hp2
      have hexp : ((c :: w2) ++ ws).take word.length
          = (c :: w2) ++ ws.take (word.length - (c :: w2).length) := by
        rw [List.take_append_eq_append_take]
        congr 1
        exact List.take_of_length_le (le_of_lt hlen)
      have hts : ws.take (word.length - (c :: w2).length) ≠ [] := by
        intro hz
        have : word = c :: w2 := by rw [hp2, hexp, hz, List.append_nil]
        have : word.length = (c :: w2).length := by rw [this]
        omega
      obtain ⟨y, ys, hys⟩ : ∃ y ys, ws.take (word.length - (c :: w2).length) = y :: ys := by
        match hZ : ws.take (word.length - (c :: w2).length), hts with
        | y :: ys, _ => exact ⟨y, ys, rfl⟩
      have hyw : y ∈ word := by
        rw [hp2, hexp, hys]
        exact List.mem_append_right _ (by simp)
      have hyws : y ∈ ws := by
        have : y ∈ ws.take (word.length - (c :: w2).length) := by rw [hys]; simp
        exact List.mem_of_mem_take this
      have := hnws y hyw
      rw [hws y hyws] at this
      exact absurd this (by simp)
    have ih := firstTokenAfter_shortSuffix_nil word hw hnws w2 ws
      (by simpa using Nat.lt_of_succ_lt hlen) hws
    simp [firstTokenAfter, hpre, ih]

/-- If no token follows but the regex fragment still matches, the input
after the word is non-empty whitespace only. -/
theorem tokenOf_none_allWS (s : List Char) (htok : tokenOf s = none)
    (hne : matchSPlus s ≠ none) : s ≠ [] ∧ ∀ c ∈ s, jsWS c = true := by
  match s with
  | [] => exact absurd rfl hne
  | c :: rest =>
    by_cases hc : jsWS c = true
    · simp only [tokenOf, hc, if_pos] at htok
      have hz : rest.dropWhile jsWS = [] := by
        rcases hw : rest.dropWhile jsWS with _ | ⟨a, b⟩
        · rfl
        · have ha : jsWS a = false := by
            have := List.head_dropWhile_not jsWS rest
            rw [hw] at this
            simpa using this
          rw [hw] at htok
          simp [List.takeWhile, ha] at htok
      have hall : ∀ x ∈ rest, jsWS x = true := List.dropWhile_eq_nil_iff.mp hz
      refine ⟨by simp, ?_⟩
      intro x hx
      rcases List.mem_cons.mp hx with rfl | hx
      · exact hc
      · exact hall x hx
    · have hc' : jsWS c = false := by simpa using hc
      exact absurd (by simp [matchSPlus, hc']) hne

/-- A token delivered by `tokenOf` is non-empty and free of whitespace. -/
theorem tokenOf_props (s t : List Char) (h : tokenOf s = some t) :
    t ≠ [] ∧ ∀ c ∈ t, jsWS c = false := by
  match s with
  | [] => simp [tokenOf] at h
  | c :: rest =>
    by_cases hc : jsWS c = true
    · simp only [tokenOf, hc, if_pos] at h
      rcases hw : (rest.dropWhile jsWS).takeWhile (fun d => !jsWS d) with _ | ⟨a, b⟩
      · rw [hw] at h
        exact absurd h (by simp)
      · rw [hw] at h
        have ht : a :: b = t := by simpa using h
        subst ht
        refine ⟨by simp, ?_⟩
        intro x hx
        have hx' : x ∈ (rest.dropWhile jsWS).takeWhile (fun d => !jsWS d) := by
          rw [hw]
          exact hx
        have := List.mem_takeWhile_imp hx'
        simpa using this
    · simp [tokenOf, hc] at h

/-- Likewise for the token the spec-side scan delivers. -/
theorem firstTokenAfter_props (word : List Char) :
    ∀ s t : List Char, firstTokenAfter word s = some t →
      t ≠ [] ∧ ∀ c ∈ t, jsWS c = false
  | [], t, h => by simp [firstTokenAfter] at h
  | c :: rest, t, h => by
    by_cases hpre : word <+: (c :: rest)
    · rcases htok : tokenOf ((c :: rest).drop word.length) with _ | t0
      · have hrec : firstTokenAfter word rest = some t := by
          simpa [firstTokenAfter, hpre, htok] using h
        exact firstTokenAfter_props word rest t hrec
      · have hsome : firstTokenAfter word (c :: rest) = some t0 := by
          simp [firstTokenAfter, hpre, htok]
        rw [h] at hsome
        obtain rfl : t = t0 := (Option.some.inj hsome)
        exact tokenOf_props _ t htok
    · have hrec : firstTokenAfter word rest = some t := by
        simpa [firstTokenAfter, hpre] using h
      exact firstTokenAfter_props word rest t hrec

/-- When the spec-side scan finds no token anywhere, the regex either finds
nothing or matches degenerately with a single whitespace capture. -/
theorem findMatch_of_firstTokenAfter_none (word : List Char) :
    ∀ s : List Char, firstTokenAfter word s = none →
      findMatch word s = none ∨ ∃ d, jsWS d = true ∧ findMatch word s = some [d]
  | [], _ => Or.inl rfl
  | c :: rest, h => by
    by_cases hpre : word <+: (c :: rest)
    · rcases htok : tokenOf ((c :: rest).drop word.length) with _ | t
      · rcases matchSPlus_of_tokenOf_none _ htok with hms | ⟨d, hd, hms⟩
        · have hrec : firstTokenAfter word rest = none := by
            simpa [firstTokenAfter, hpre, htok] using h
          rcases findMatch_of_firstTokenAfter_none word rest hrec with h1 | ⟨d, hd, h1⟩
          · exact Or.inl (by simp [findMatch, hpre, hms, h1])
          · exact Or.inr ⟨d, hd, by simp [findMatch, hpre, hms, h1]⟩
        · exact Or.inr ⟨d, hd, by simp [findMatch, hpre, hms]⟩
      · exfalso
        have hsome : firstTokenAfter word (c :: rest) = some t := by
          simp [firstTokenAfter, hpre, htok]
        rw [h] at hsome
        exact Option.noConfusion hsome
    · have hrec : firstTokenAfter word rest = none := by
        simpa [firstTokenAfter, hpre] using h
      rcases findMatch_of_firstTokenAfter_none word rest hrec with h1 | ⟨d, hd, h1⟩
      · exact Or.inl (by simp [findMatch, hpre, h1])
      · exact Or.inr ⟨d, hd, by simp [findMatch, hpre, h1]⟩

/-- When the spec-side scan finds the first token, the regex captures
exactly it (the word is non-empty and free of whitespace). -/
theorem findMatch_of_firstTokenAfter_some (word : List Char) (hw : word ≠ [])
    (hnws : ∀ c ∈ word, jsWS c = false) :
    ∀ s t : List Char, firstTokenAfter word s = some t → findMatch word s = some t
  | [], t, h => by simp [firstTokenAfter] at h
  | c :: rest, t, h => by
    by_cases hpre : word <+: (c :: rest)
    · rcases htok : tokenOf ((c :: rest).drop word.length) with _ | t0
      · have hrec : firstTokenAfter word rest = some t := by
          simpa [firstTokenAfter, hpre, htok] using h
        rcases matchSPlus_of_tokenOf_none _ htok with hms | ⟨d, hd, hms⟩
        · have ih := findMatch_of_firstTokenAfter_some word hw hnws rest t hrec
          simp [findMatch, hpre, hms, ih]
        · exfalso
          have hdeg := tokenOf_none_allWS _ htok (by rw [hms]; simp)
          obtain ⟨tl, htl⟩ := hpre
          have htl' : (c :: rest).drop word.length = tl := by
            rw [← htl]
            exact List.drop_left word tl
          obtain ⟨wh, wt, rfl⟩ : ∃ wh wt, word = wh :: wt := by
            match word, hw with
            | wh :: wt, _ => exact ⟨wh, wt, rfl⟩
          have hrest : rest = wt ++ tl := by
            have := htl
            rw [List.cons_append] at this
            exact (List.cons.inj this).2.symm
          have hnone : firstTokenAfter (wh :: wt) rest = none := by
            rw [hrest]
            exact firstTokenAfter_shortSuffix_nil (wh :: wt) hw hnws wt tl
              (by simp) (by rw [htl'] at hdeg; exact hdeg.2)
          rw [hnone] at hrec
          exact Option.noConfusion hrec
      · have hsome : firstTokenAfter word (c :: rest) = some t0 := by
          simp [firstTokenAfter, hpre, htok]
        rw [h] at hsome
        obtain rfl : t = t0 := (Option.some.inj hsome)
        have hms := matchSPlus_of_tokenOf_some _ t htok
        simp [findMatch, hpre, hms]
    · have hrec : firstTokenAfter word rest = some t := by
        simpa [firstTokenAfter, hpre] using h
      have ih := findMatch_of_firstTokenAfter_some word hw hnws rest t hrec
      simp [findMatch, hpre, ih]

/-- Trimming a whitespace-free string is the identity. -/
theorem jsTrim_of_nonWS (t : List Char) (h : ∀ c ∈ t, jsWS c = false) :
    jsTrim t = t := by
  have h1 : t.dropWhile jsWS = t := by
    cases t with
    | nil => rfl
    | cons a b => simp [List.dropWhile, h a (by simp)]
  have h2 : t.reverse.dropWhile jsWS = t.reverse := by
    cases hrev : t.reverse with
    | nil => rfl
    | cons a b =>
      have ha : a ∈ t := by
        have : a ∈ t.reverse := by rw [hrev]; simp
        simpa using this
      simp [List.dropWhile, h a ha]
  simp [jsTrim, h1, h2]

/-- Trimming a single whitespace character gives the empty string. -/
theorem jsTrim_singleton_ws (d : Char) (h : jsWS d = true) : jsTrim [d] = [] := by
  simp [jsTrim, List.dropWhile, h]

/-- Characters of a lazy capture come from the input. -/
theorem lazyCap_mem : ∀ s t : List Char, lazyCap s = some t → ∀ c ∈ t, c ∈ s
  | [], t, h => by simp [lazyCap] at h
  | x :: rest, t, h => by
    by_cases hdot : jsDotChar x = true
    · cases rest with
      | nil =>
        simp only [lazyCap, hdot, if_pos] at h
        obtain rfl : [x] = t := by simpa using h
        simp
      | cons d tl =>
        by_cases hd : jsWS d = true
        · simp only [lazyCap, hdot, hd, if_pos] at h
          obtain rfl : [x] = t := by simpa using h
          simp
        · have hd' : jsWS d = false := by simpa using hd
          have hstep : lazyCap (x :: d :: tl) = (lazyCap (d :: tl)).map fun u => x :: u := by
            simp [lazyCap, hdot, hd']
          rw [hstep] at h
          rcases hl : lazyCap (d :: tl) with _ | u
          · rw [hl] at h
            simp at h
          · rw [hl] at h
            obtain rfl : x :: u = t := by simpa using h
            intro c hc
            rcases List.mem_cons.mp hc with rfl | hc
            · simp
            · exact List.mem_cons_of_mem x (lazyCap_mem (d :: tl) u hl c hc)
    · have : jsDotChar x = false := by simpa using hdot
      simp [lazyCap, this] at h

/-- Characters of a `matchRest` capture come from the input. -/
theorem matchRest_mem : ∀ s t : List Char, matchRest s = some t → ∀ c ∈ t, c ∈ s
  | [], t, h => by simp [matchRest] at h
  | x :: rest, t, h => by
    by_cases hx : jsWS x = true
    · rcases hmr : matchRest rest with _ | u
      · simp only [matchRest, hx, hmr, if_pos] at h
        exact lazyCap_mem (x :: rest) t h
      · simp only [matchRest, hx, hmr, if_pos] at h
        obtain rfl : u = t := by simpa using h
        intro c hc
        exact List.mem_cons_of_mem x (matchRest_mem rest u hmr c hc)
    · have hx' : jsWS x = false := by simpa using hx
      simp only [matchRest, hx'] at h
      exact lazyCap_mem (x :: rest) t (by simpa [hx'] using h)

/-- Characters of a `matchSPlus` capture come from the input. -/
theorem matchSPlus_mem (s t : List Char) (h : matchSPlus s = some t) :
    ∀ c ∈ t, c ∈ s := by
  match s with
  | [] => simp [matchSPlus] at h
  | x :: rest =>
    by_cases hx : jsWS x = true
    · simp only [matchSPlus, hx, if_pos] at h
      intro c hc
      exact List.mem_cons_of_mem x (matchRest_mem rest t h c hc)
    · have hx' : jsWS x = false := by simpa using hx
      simp [matchSPlus, hx'] at h

/-- Characters of a regex capture come from the scanned string. -/
theorem findMatch_mem (word : List Char) :
    ∀ s cap : List Char, findMatch word s = some cap → ∀ c ∈ cap, c ∈ s
  | [], cap, h => by simp [findMatch] at h
  | x :: rest, cap, h => by
    by_cases hpre : word <+: (x :: rest)
    · rcases hms : matchSPlus ((x :: rest).drop word.length) with _ | u
      · have hrec : findMatch word rest = some cap := by
          simpa [findMatch, hpre, hms] using h
        intro c hc
        exact List.mem_cons_of_mem x (findMatch_mem word rest cap hrec c hc)
      · have hcap : findMatch word (x :: rest) = some u := by
          simp [findMatch, hpre, hms]
        rw [h] at hcap
        obtain rfl : cap = u := (Option.some.inj hcap)
        intro c hc
        have := matchSPlus_mem _ cap hms c hc
        exact (List.drop_sublist _ _).subset this
    · have hrec : findMatch word rest = some cap := by
        simpa [findMatch, hpre] using h
      intro c hc
      exact List.mem_cons_of_mem x (findMatch_mem word rest cap hrec c hc)

/-- Characters of the trimmed string come from the string. -/
theorem jsTrim_subset (t : List Char) : ∀ c ∈ jsTrim t, c ∈ t := by
  intro c hc
  unfold jsTrim at hc
  rw [List.mem_reverse] at hc
  have h1 : c ∈ (t.dropWhile jsWS).reverse := (List.dropWhile_sublist _).subset hc
  rw [List.mem_reverse] at h1
  exact (List.dropWhile_sublist _).subset h1

/-- Every character of the lower-cased query is fixed by lower-casing. -/
theorem mem_toLowerStr_fixed (q : List Char) (c : Char) (h : c ∈ toLowerStr q) :
    Char.toLower c = c := by
  obtain ⟨x, _, rfl⟩ := List.mem_map.mp h
  exact toLower_toLower x

/-- C3 (counterexample): on the query "about  " (two trailing spaces) the
regex still matches with a whitespace-only capture, so the keyword is set
to the empty string — although no whitespace-delimited token follows
"about" (or "with") and no sentiment is detected, where the claim's
fallback rule would give the trimmed query "about". -/
theorem interpret_about_trailing_ws_cex :
    firstTokenAfter aboutW (toLowerStr (("about  ").data)) = none
  ∧ firstTokenAfter withW (toLowerStr (("about  ").data)) = none
  ∧ (interpret (("about  ").data)).sentiment = none
  ∧ (jsTrim (("about  ").data)).take 50 = ("about").data
  ∧ (interpret (("about  ").data)).keyword = some []
  ∧ some ([] : List Char) ≠ some (("about").data) := by
  exact ⟨by decide, by decide, by decide, by decide, by decide, by decide⟩

/-- C3 (amended): for every query, the keyword follows the claimed
precedence — the first whitespace-delimited token after "about" (truncated
to 50), else the same after "with", else the trimmed query (truncated to
50) when no sentiment was detected, else no keyword — except that when the
regex for "about"/"with" matches without any token following the word (the
lower-cased query ends in the word plus two or more whitespace characters)
the capture is whitespace-only and the keyword is set to the empty string
instead of falling back.  In particular the keyword is always set when
sentiment is unset. -/
theorem interpret_keyword_precedence (q : List Char) :
    (∀ t, firstTokenAfter aboutW (toLowerStr q) = some t →
      (interpret q).keyword = some (t.take 50))
  ∧ (firstTokenAfter aboutW (toLowerStr q) = none →
      ∀ cap, findMatch aboutW (toLowerStr q) = some cap →
        (interpret q).keyword = some [])
  ∧ (findMatch aboutW (toLowerStr q) = none →
      ∀ t, firstTokenAfter withW (toLowerStr q) = some t →
        (interpret q).keyword = some (t.take 50))
  ∧ (findMatch aboutW (toLowerStr q) = none →
      firstTokenAfter withW (toLowerStr q) = none →
      ∀ cap, findMatch withW (toLowerStr q) = some cap →
        (interpret q).keyword = some [])
  ∧ (findMatch aboutW (toLowerStr q) = none →
      findMatch withW (toLowerStr q) = none →
      (interpret q).sentiment = none →
        (interpret q).keyword = some ((jsTrim q).take 50))
  ∧ (findMatch aboutW (toLowerStr q) = none →
      findMatch withW (toLowerStr q) = none →
      ∀ sv, (interpret q).sentiment = some sv →
        (interpret q).keyword = none)
  ∧ ((interpret q).sentiment = none → (interpret q).keyword ≠ none) := by
  refine ⟨?_, ?_, ?_, ?_, ?_, ?_, ?_⟩
  · intro t ht
    have hfm := findMatch_of_firstTokenAfter_some aboutW (by decide) (by decide)
      (toLowerStr q) t ht
    have hprops := firstTokenAfter_props aboutW (toLowerStr q) t ht
    simp [interpret, interpretKeyword, hfm, jsTrim_of_nonWS t hprops.2]
  · intro hnone cap hcap
    rcases findMatch_of_firstTokenAfter_none aboutW (toLowerStr q) hnone with
      h1 | ⟨d, hd, h1⟩
    · rw [h1] at hcap
      exact Option.noConfusion hcap
    · simp [interpret, interpretKeyword, h1, jsTrim_singleton_ws d hd]
  · intro hA t ht
    have hfm := findMatch_of_firstTokenAfter_some withW (by decide) (by decide)
      (toLowerStr q) t ht
    have hprops := firstTokenAfter_props withW (toLowerStr q) t ht
    simp [interpret, interpretKeyword, hA, hfm, jsTrim_of_nonWS t hprops.2]
  · intro hA hnone cap hcap
    rcases findMatch_of_firstTokenAfter_none withW (toLowerStr q) hnone with
      h1 | ⟨d, hd, h1⟩
    · rw [h1] at hcap
      exact Option.noConfusion hcap
    · simp [interpret, interpretKeyword, hA, h1, jsTrim_singleton_ws d hd]
  · intro hA hW hs
    have hs' : detectSentiment (toLowerStr q) = none := hs
    simp [interpret, interpretKeyword, hA, hW, hs']
  · intro hA hW sv hs
    have hs' : detectSentiment (toLowerStr q) = some sv := hs
    simp [interpret, interpretKeyword, hA, hW, hs']
  · intro hs hknone
    rcases hA : findMatch aboutW (toLowerStr q) with _ | cap
    · rcases hW : findMatch withW (toLowerStr q) with _ | cap
      · have hs' : detectSentiment (toLowerStr q) = none := hs
        simp [interpret, interpretKeyword, hA, hW, hs'] at hknone
      · simp [interpret, interpretKeyword, hA, hW] at hknone
    · simp [interpret, interpretKeyword, hA] at hknone

/-- C10: a keyword produced by the about/with rules is extracted from the
lower-cased copy of the query, so each of its characters is fixed by
lower-casing (entirely lower-case); the fallback keyword is the trimmed
original query truncated to 50, preserving the submitted casing. -/
theorem interpret_keyword_casing (q : List Char) :
    (∀ cap, (findMatch aboutW (toLowerStr q) = some cap ∨
        (findMatch aboutW (toLowerStr q) = none ∧
         findMatch withW (toLowerStr q) = some cap)) →
      ∀ k, (interpret q).keyword = some k →
        ∀ c ∈ k, Char.toLower c = c ∧ c ∈ toLowerStr q)
  ∧ (findMatch aboutW (toLowerStr q) = none →
     findMatch withW (toLowerStr q) = none →
     (interpret q).sentiment = none →
      (interpret q).keyword = some ((jsTrim q).take 50) ∧
        ∀ c ∈ (jsTrim q).take 50, c ∈ q) := by
  constructor
  · rintro cap (hA | ⟨hA, hW⟩) k hk c hc
    · have hkw : (interpret q).keyword = some ((jsTrim cap).take 50) := by
        simp [interpret, interpretKeyword, hA]
      rw [hk] at hkw
      obtain rfl : k = (jsTrim cap).take 50 := (Option.some.inj hkw)
      have hc2 : c ∈ cap := jsTrim_subset cap c ((List.take_sublist _ _).subset hc)
      have hc3 : c ∈ toLowerStr q := findMatch_mem aboutW (toLowerStr q) cap hA c hc2
      exact ⟨mem_toLowerStr_fixed q c hc3, hc3⟩
    · have hkw : (interpret q).keyword = some ((jsTrim cap).take 50) := by
        simp [interpret, interpretKeyword, hA, hW]
      rw [hk] at hkw
      obtain rfl : k = (jsTrim cap).take 50 := (Option.some.inj hkw)
      have hc2 : c ∈ cap := jsTrim_subset cap c ((List.take_sublist _ _).subset hc)
      have hc3 : c ∈ toLowerStr q := findMatch_mem withW (toLowerStr q) cap hW c hc2
      exact ⟨mem_toLowerStr_fixed q c hc3, hc3⟩
  · intro hA hW hs
    have hs' : detectSentiment (toLowerStr q) = none := hs
    refine ⟨by simp [interpret, interpretKeyword, hA, hW, hs'], ?_⟩
    intro c hc
    exact jsTrim_subset q c ((List.take_sublist _ _).subset hc)

end Pulse
